import Mathlib

/-!
Verification of the `deno install` tool (`src/cli/tools/installer.rs`).

The Rust source is shallowly embedded below.  Conventions:

* the non-Windows build of the source is the one modelled (`cfg!(windows)`
  is `false`; the Windows-only escaping code is embedded separately where a
  claim is about it);
* the filesystem is an explicit value (`FS`) threaded through `install`:
  a list of (path, content) files plus a list of directories;
* external collaborators that the specification places out of scope
  (`canonicalize_path`, `resolve_url_or_path`) are fields of an `Externals`
  record passed to `install`;
* machine strings are Lean `String`s; Rust `Path` operations used by the
  source (`file_stem`, `file_name`, `parent`, `set_extension`, `push`) are
  embedded for Unix path semantics, which is all the source exercises on
  the modelled build;
* fallible Rust code returning `Result<_, AnyError>` becomes
  `Except String _`, carrying the `generic_error` message.
-/

/-- A parsed URL, as produced by the external `resolve_url_or_path`
collaborator: the source only ever uses `url.to_string()` and
`url.path()`, so the embedding keeps exactly those two views. -/
structure Url where
  str : String
  path : String
deriving DecidableEq, Repr

/-- `log::Level`, the five-variant logging level enum from the `log` crate. -/
inductive Level where
  | error
  | warn
  | info
  | debug
  | trace
deriving DecidableEq, Repr

/-- `Display` for `log::Level` (used only in the invalid-log-level message):
upper-case level names. -/
def levelName : Level → String
  | .error => "ERROR"
  | .warn => "WARN"
  | .info => "INFO"
  | .debug => "DEBUG"
  | .trace => "TRACE"

/-- The fields of `crate::flags::Flags` that `install` reads
(lines 193-279 of the source).  Permission allow-lists are
`Option (List String)`: `none` = permission absent, `some []` =
unrestricted grant, `some xs` = scoped grant. -/
structure Flags where
  allow_read : Option (List String)
  allow_write : Option (List String)
  allow_net : Option (List String)
  allow_env : Option (List String)
  allow_run : Option (List String)
  allow_plugin : Bool
  allow_hrtime : Bool
  location : Option String
  ca_file : Option String
  log_level : Option Level
  no_check : Bool
  unstable : Bool
  no_remote : Bool
  lock_write : Bool
  cached_only : Bool
  v8_flags : List String
  seed : Option Nat
  inspect : Option String
  inspect_brk : Option String
  import_map_path : Option String
  config_path : Option String
  lock : Option String
deriving DecidableEq, Repr

/-- `Flags::default()`: every option absent, every switch off. -/
def defaultFlags : Flags :=
  { allow_read := none, allow_write := none, allow_net := none
  , allow_env := none, allow_run := none
  , allow_plugin := false, allow_hrtime := false
  , location := none, ca_file := none, log_level := none
  , no_check := false, unstable := false, no_remote := false
  , lock_write := false, cached_only := false
  , v8_flags := [], seed := none, inspect := none, inspect_brk := none
  , import_map_path := none, config_path := none, lock := none }

/-- The filesystem state seen and produced by `install`: regular files with
their contents, and the set of directories.  (Ancestor directories implied
by `create_dir_all`, and the 0755 permission bits set by
`generate_executable_file`, are elided: no claim observes them.) -/
structure FS where
  files : List (String × String)
  dirs : List String
deriving DecidableEq, Repr

def FS.fileContent (fs : FS) (p : String) : Option String :=
  (fs.files.find? (fun e => e.1 == p)).map (·.2)

def FS.isFile (fs : FS) (p : String) : Bool :=
  (fs.fileContent p).isSome

def FS.isDir (fs : FS) (p : String) : Bool :=
  fs.dirs.contains p

/-- `Path::exists` — true for files and directories alike. -/
def FS.pathExists (fs : FS) (p : String) : Bool :=
  fs.isFile p || fs.isDir p

/-- `fs::write` / `File::create` + `write_all`: (over)write a file. -/
def FS.writeFile (fs : FS) (p c : String) : FS :=
  { files := (p, c) :: fs.files, dirs := fs.dirs }

/-- `fs::create_dir_all` (the created ancestors are elided, see `FS`). -/
def FS.createDirAll (fs : FS) (p : String) : FS :=
  { files := fs.files, dirs := p :: fs.dirs }

/-- The external collaborators the spec puts out of scope:
`crate::fs_util::canonicalize_path` and `deno_core::resolve_url_or_path`. -/
structure Externals where
  canonicalize : String → Except String String
  resolve : String → Except String Url

/-- Environment-variable lookup (`env::var` / `env::var_os`). -/
def envVar (env : List (String × String)) (k : String) : Option String :=
  ((env.find? (fun e => e.1 == k)).map (·.2))

/-! ## Unix path operations used by the source -/

/-- Split a character list at the **last** occurrence of `c`:
`some (before, after)`, or `none` if `c` does not occur. -/
def lastSplit (c : Char) : List Char → Option (List Char × List Char)
  | [] => none
  | x :: xs =>
    match lastSplit c xs with
    | some (b, a) => some (x :: b, a)
    | none => if x = c then some ([], xs) else none

/-- `Path::file_stem` applied to a final component: the part before the
last `.`, except that a name whose only `.` is leading keeps it (Rust
treats `.hidden` as having no extension). -/
def stemOfName (n : List Char) : List Char :=
  match lastSplit '.' n with
  | some (b, _) => if b = [] then n else b
  | none => n

/-- Split a character list on every occurrence of `c`
(the behaviour of Rust `str::split` / `String.splitOn` for a
one-character separator). -/
def splitOnChar (c : Char) : List Char → List (List Char)
  | [] => [[]]
  | x :: xs =>
    let r := splitOnChar c xs
    if x = c then [] :: r
    else
      match r with
      | h :: t => (x :: h) :: t
      | [] => [[x]]

/-- The `/`-separated pieces of a path string, verbatim (including empty
pieces from leading, trailing or doubled separators). -/
def rawSegments (p : String) : List String :=
  (splitOnChar '/' p.toList).map (fun l => String.mk l)

/-- The normalized components of a Unix `Path`: root, empty and `.`
pieces are dropped (Rust's `Components` normalization). -/
def pathComponents (p : String) : List String :=
  (rawSegments p).filter (fun s => !(s == "") && !(s == "."))

/-- `Path::file_name`: the last component, unless the path ends in `..`
or has no components. -/
def fileNameOfPath (p : String) : Option String :=
  match (pathComponents p).getLast? with
  | some s => if s = ".." then none else some s
  | none => none

/-- `path.file_stem()` (used at line 129 of the source). -/
def fileStemOfPath (p : String) : Option String :=
  (fileNameOfPath p).map (fun n => String.mk (stemOfName n.toList))

/-- `path.parent().and_then(|p| p.file_name())` (line 134 of the source). -/
def parentFileName (p : String) : Option String :=
  match (pathComponents p).dropLast.getLast? with
  | some s => if s = ".." then none else some s
  | none => none

/-- `PathBuf::push` / `Path::join` for a relative component: appends a
separator unless one is already present (or the base is empty). -/
def pathPush (d : String) (s : String) : String :=
  if d = "" then s
  else if d.toList.getLast? = some '/' then d ++ s
  else d ++ "/" ++ s

/-- `PathBuf::set_extension e` for a path whose final component is a plain
name: replace everything after the last `.` of the final component by `e`
(appending `.e` if the component has no extension).  A path without a
final component is returned unchanged (Rust's `set_extension` is a no-op
there). -/
def setExtension (p : String) (e : String) : String :=
  match lastSplit '/' p.toList with
  | some (d, n) =>
    if n = [] then p
    else String.mk (d ++ '/' :: (stemOfName n ++ '.' :: e.toList))
  | none =>
    if p = "" then p
    else String.mk (stemOfName p.toList ++ '.' :: e.toList)

/-! ## The installer's own functions -/

/-- The `EXEC_NAME_RE` regular expression `^[a-z][\w-]*$` with
case-insensitivity: a letter followed by word characters or hyphens.
(The embedding reads the character classes at ASCII, which is exact for
every name a claim mentions; `@`, `.`, `/`, spaces and digits-in-front
are rejected in both readings.) -/
def exec_name_matches (s : String) : Bool :=
  match s.toList with
  | [] => false
  | c :: rest => c.isAlpha && rest.all (fun d => d.isAlphanum || d = '_' || d = '-')

/-- `validate_name` (lines 32-41). -/
def validate_name (exec_name : String) : Except String Unit :=
  if exec_name_matches exec_name then Except.ok ()
  else Except.error ("Invalid executable name: " ++ exec_name)

/-- `infer_name_from_url` (lines 127-140): file stem of the URL path,
parent directory's name instead when the stem is a generic entry-point
name, then truncation at the first `@`. -/
def infer_name_from_url (url : Url) : Option String :=
  match fileStemOfPath url.path with
  | none => none
  | some stem0 =>
    let stem :=
      if stem0 = "main" ∨ stem0 = "mod" ∨ stem0 = "index" ∨ stem0 = "cli" then
        match parentFileName url.path with
        | some parent_name => parent_name
        | none => stem0
      else stem0
    some (String.mk (stem.toList.takeWhile (fun c => c != '@')))

/-- The `HOME`-variable fallback inside `get_installer_root`
(lines 111-124; the non-Windows build uses `HOME` and appends `.deno`). -/
def home_fallback (env : List (String × String)) : Except String String :=
  match envVar env "HOME" with
  | some home => Except.ok (pathPush home ".deno")
  | none => Except.error "$HOME is not defined"

/-- `get_installer_root` (lines 105-125): `DENO_INSTALL_ROOT` if set and
non-empty (canonicalized), otherwise `$HOME/.deno`. -/
def get_installer_root (ext : Externals) (env : List (String × String)) :
    Except String String :=
  match envVar env "DENO_INSTALL_ROOT" with
  | some env_dir =>
    if env_dir ≠ "" then ext.canonicalize env_dir else home_fallback env
  | none => home_fallback env

/-- Lines 150-154 of `install`: an explicit root argument is
canonicalized, otherwise `get_installer_root` runs. -/
def resolved_root (ext : Externals) (env : List (String × String))
    (root : Option String) : Except String String :=
  match root with
  | some r => ext.canonicalize r
  | none => get_installer_root ext env

/-- Lines 157-164 of `install`: the `bin` directory must be a directory if
it exists, and is created otherwise. -/
def ensure_dir (fs : FS) (d : String) : Except String FS :=
  if fs.pathExists d then
    if fs.isDir d then Except.ok fs
    else Except.error "Installation path is not a directory"
  else Except.ok (fs.createDirAll d)

/-- Modelled from the spec: `Flags::to_permission_args` lives in
`crate::flags`, which is not under `src/`.  Spec section 4.3 item 2: each
permission category maps to one `--allow-<category>[=<scope>]` token, in
the configuration's own canonical order, and an absent category is
omitted.  The canonical order (read, write, net, env, run, plugin,
hrtime) is the one exercised by the repository's own
`install_with_flags` test, which expects `--allow-read` before
`--allow-net`. -/
def permArg (category : String) : Option (List String) → List String
  | none => []
  | some [] => ["--allow-" ++ category]
  | some scopes => ["--allow-" ++ category ++ "=" ++ String.intercalate "," scopes]

/-- Modelled from the spec: see `permArg`. -/
def Flags.to_permission_args (f : Flags) : List String :=
  permArg "read" f.allow_read ++ permArg "write" f.allow_write ++
  permArg "net" f.allow_net ++ permArg "env" f.allow_env ++
  permArg "run" f.allow_run ++
  (if f.allow_plugin then ["--allow-plugin"] else []) ++
  (if f.allow_hrtime then ["--allow-hrtime"] else [])

/-- Lines 203-217 of `install`: the tokens contributed by the logging
level.  `Error` becomes `--quiet`; `Debug`/`Info` become the
`--log-level` flag followed by the lower-case name as a separate token;
any other level aborts with the invalid-log-level error. -/
def log_level_args : Option Level → Except String (List String)
  | none => Except.ok []
  | some l =>
    if l = Level.error then Except.ok ["--quiet"]
    else
      match l with
      | Level.debug => Except.ok ["--log-level", "debug"]
      | Level.info => Except.ok ["--log-level", "info"]
      | l' => Except.error ("invalid log level " ++ levelName l')

/-- Lines 191-279 of `install`: serialize the configuration into the
argument vector replayed by the launcher, staging the config / lock
copies as extra files.  Token order and the order in which fallible steps
run (log level, import-map resolution, config read, lock read) follow the
source exactly. -/
def build_executable_args (ext : Externals) (fs : FS) (flags : Flags)
    (module_url : Url) (args : List String) (file_path : String) :
    Except String (List String × List (String × String)) := do
  let loc := match flags.location with
    | some url => ["--location", url]
    | none => []
  let cert := match flags.ca_file with
    | some ca_file => ["--cert", ca_file]
    | none => []
  let lvl ← log_level_args flags.log_level
  let imap ← match flags.import_map_path with
    | some import_map_path => do
      let import_map_url ← ext.resolve import_map_path
      pure ["--import-map", import_map_url.str]
    | none => pure []
  let cfg ← match flags.config_path with
    | some config_path =>
      let copy_path := setExtension file_path "tsconfig.json"
      match fs.fileContent config_path with
      | some content =>
        pure (["--config", copy_path], [(copy_path, content)])
      | none => Except.error ("failed to read " ++ config_path)
    | none => pure (([] : List String), ([] : List (String × String)))
  let lock ← match flags.lock with
    | some lock_path =>
      let copy_path := setExtension file_path "lock.json"
      match fs.fileContent lock_path with
      | some content =>
        pure (["--lock", copy_path], [(copy_path, content)])
      | none => Except.error ("failed to read " ++ lock_path)
    | none => pure (([] : List String), ([] : List (String × String)))
  pure (["run"] ++ flags.to_permission_args ++ loc ++ cert ++ lvl ++
    (if flags.no_check then ["--no-check"] else []) ++
    (if flags.unstable then ["--unstable"] else []) ++
    (if flags.no_remote then ["--no-remote"] else []) ++
    (if flags.lock_write then ["--lock-write"] else []) ++
    (if flags.cached_only then ["--cached-only"] else []) ++
    (if flags.v8_flags ≠ [] then
      ["--v8-flags=" ++ String.intercalate "," flags.v8_flags] else []) ++
    (match flags.seed with
      | some seed => ["--seed", toString seed]
      | none => []) ++
    (match flags.inspect with
      | some inspect => ["--inspect=" ++ inspect]
      | none => []) ++
    (match flags.inspect_brk with
      | some inspect_brk => ["--inspect-brk=" ++ inspect_brk]
      | none => []) ++
    imap ++ cfg.1 ++ lock.1 ++ [module_url.str] ++ args,
    cfg.2 ++ lock.2)

/-! ## Shell escaping (the `shell_escape` crate, Unix) and launcher emission -/

/-- The backquote character (ASCII 96). -/
def backquote : Char := Char.ofNat 96

/-- The complement of `shell_escape::unix::non_whitelisted`: ASCII
alphanumerics and `-_=/,.+` need no quoting. -/
def whitelisted (c : Char) : Bool :=
  c.isAlphanum || c = '-' || c = '_' || c = '=' || c = '/' || c = ',' ||
  c = '.' || c = '+'

/-- One character of the single-quoted body produced by
`shell_escape::unix::escape`: `'` and `!` briefly close the quote and are
backslash-escaped. -/
def escChar (c : Char) : List Char :=
  if c = '\'' ∨ c = '!' then ['\'', '\\', c, '\'']
  else [c]

/-- `shell_escape::escape` for Unix (the dependency used at line 84 of the
source): a non-empty fully-whitelisted string passes through, anything
else is wrapped in single quotes with `'` and `!` escaped. -/
def shellEscape (s : String) : String :=
  if s ≠ "" ∧ s.toList.all whitelisted then s
  else String.mk ('\'' :: (s.toList.map escChar).flatten ++ ['\''])

/-- Join strings with a separator (Rust `[String]::join`). -/
def joinWith (sep : String) : List String → String
  | [] => ""
  | [x] => x
  | x :: xs => x ++ sep ++ joinWith sep xs

/-- The POSIX launcher body written by the non-Windows
`generate_executable_file` (lines 89-95). -/
def posixLauncher (args : List String) : String :=
  "#!/bin/sh\n# generated by deno install\nexec deno " ++
  joinWith " " (args.map shellEscape) ++ " \"$@\"\n"

/-- The non-Windows `generate_executable_file` (lines 79-103): writes the
POSIX launcher (the 0755 permission change is elided, see `FS`). -/
def generate_executable_file (fs : FS) (file_path : String)
    (args : List String) : FS :=
  fs.writeFile file_path (posixLauncher args)

/-- One argument as quoted by the Windows `generate_executable_file`
(line 52): the token wrapped in double quotes, with no inner escaping. -/
def windows_quoted_arg (c : String) : String :=
  String.mk ('"' :: c.toList ++ ['"'])

/-- Double every `%` (line 57 of the source, applied for the `.cmd` file
only). -/
def doublePercents : List Char → List Char
  | [] => []
  | c :: rest =>
    if c = '%' then '%' :: '%' :: doublePercents rest
    else c :: doublePercents rest

/-- One argument as it appears in the Windows `.cmd` launcher:
double-quoted, with `%` doubled. -/
def windows_cmd_arg (c : String) : String :=
  String.mk (doublePercents (windows_quoted_arg c).toList)

/-- The `.cmd` launcher body written by the Windows
`generate_executable_file` (lines 52-60). -/
def windows_cmd_script (args : List String) : String :=
  "% generated by deno install %\n@deno " ++
  joinWith " " (args.map windows_cmd_arg) ++ " %*\n"

/-- The extensionless sh companion written by the Windows
`generate_executable_file` (lines 64-73): a POSIX script, but reusing the
cmd-style double-quoted arguments. -/
def windows_sh_script (args : List String) : String :=
  "#!/bin/sh\n# generated by deno install\ndeno " ++
  joinWith " " (args.map windows_quoted_arg) ++ " \"$@\"\n"

/-! ## A POSIX shell word parser (the target dialect's quoting rules)

Used to state the round-trip property: a single command word is read back
under POSIX quoting (single quotes, double quotes, backslash).  Characters
the shell would not take literally (whitespace, globs, expansions,
comment/history characters) make the parse fail, as do `$` and backquote
inside double quotes (which would expand rather than round-trip). -/

inductive ShellMode where
  | unq
  | sq
  | dq
deriving DecidableEq, Repr

/-- Characters that are not literal for an unquoted POSIX shell word. -/
def isMeta (c : Char) : Bool :=
  c = ' ' ∨ c = '\t' ∨ c = '\n' ∨ c = '"' ∨ c = '$' ∨ c = backquote ∨
  c = '|' ∨ c = '&' ∨ c = ';' ∨ c = '<' ∨ c = '>' ∨ c = '(' ∨ c = ')' ∨
  c = '*' ∨ c = '?' ∨ c = '[' ∨ c = ']' ∨ c = '#' ∨ c = '~' ∨ c = '!'

/-- Read one whole shell word in the given quoting mode; `none` when the
input is not a single literal word. -/
def parseShell : List Char → ShellMode → Option (List Char)
  | [], .unq => some []
  | [], .sq => none
  | [], .dq => none
  | c :: rest, .unq =>
    if c = '\'' then parseShell rest .sq
    else if c = '"' then parseShell rest .dq
    else if c = '\\' then
      match rest with
      | [] => none
      | d :: rest' =>
        if d = '\n' then parseShell rest' .unq
        else (parseShell rest' .unq).map (fun l => d :: l)
    else if isMeta c then none
    else (parseShell rest .unq).map (fun l => c :: l)
  | c :: rest, .sq =>
    if c = '\'' then parseShell rest .unq
    else (parseShell rest .sq).map (fun l => c :: l)
  | c :: rest, .dq =>
    if c = '"' then parseShell rest .unq
    else if c = '\\' then
      match rest with
      | [] => none
      | d :: rest' =>
        if d = '"' ∨ d = '\\' ∨ d = '$' ∨ d = backquote then
          (parseShell rest' .dq).map (fun l => d :: l)
        else (parseShell rest' .dq).map (fun l => '\\' :: d :: l)
    else if c = '$' ∨ c = backquote then none
    else (parseShell rest .dq).map (fun l => c :: l)

/-- Parse a complete string as one POSIX shell word. -/
def parseShellWord (s : String) : Option String :=
  (parseShell s.toList .unq).map (fun l => String.mk l)

/-! ## `install` (lines 142-304) -/

/-- `install`: resolve the root, ensure the `bin` directory, resolve the
module URL, resolve and validate the name, check for an existing
launcher, serialize the arguments, write the launcher and the staged
extra files.  Returns the result together with the filesystem after the
call (unchanged on the error paths except for the `bin` directory
creation, exactly as in the source). -/
def install (ext : Externals) (env : List (String × String)) (fs0 : FS)
    (flags : Flags) (module_url : String) (args : List String)
    (name : Option String) (root : Option String) (force : Bool) :
    Except String Unit × FS :=
  match resolved_root ext env root with
  | .error e => (.error e, fs0)
  | .ok root =>
    let installation_dir := pathPush root "bin"
    match ensure_dir fs0 installation_dir with
    | .error e => (.error e, fs0)
    | .ok fs =>
      match ext.resolve module_url with
      | .error e => (.error e, fs)
      | .ok module_url =>
        match name.or (infer_name_from_url module_url) with
        | none =>
          (.error "An executable name was not provided. One could not be inferred from the URL. Aborting.", fs)
        | some name =>
          match validate_name name with
          | .error e => (.error e, fs)
          | .ok _ =>
            let file_path := pathPush installation_dir name
            if fs.pathExists file_path && !force then
              (.error "Existing installation found. Aborting (Use -f to overwrite).", fs)
            else
              match build_executable_args ext fs flags module_url args file_path with
              | .error e => (.error e, fs)
              | .ok (executable_args, extra_files) =>
                let fs := generate_executable_file fs file_path executable_args
                (.ok (), extra_files.foldl (fun acc pc => acc.writeFile pc.1 pc.2) fs)

deriving instance DecidableEq for Except

/-- Identity external collaborators, used to run the model on concrete
inputs: canonicalization is the identity and every module string resolves
to a URL printing as itself. -/
def trivialExternals : Externals :=
  ⟨fun s => Except.ok s, fun s => Except.ok ⟨s, s⟩⟩

/-! ## Spec-side definitions (written from the claims' wording) -/

/-- The root-resolution precedence exactly as the spec words it: explicit
root first (canonicalized), then the root-override variable if set and
non-empty (canonicalized, an empty value treated as unset), then the home
variable with the fixed `.deno` subdirectory, else the home-not-found
error. -/
def specRootPrecedence (ext : Externals) (env : List (String × String))
    (root : Option String) : Except String String :=
  match root, (envVar env "DENO_INSTALL_ROOT").filter (fun v => v != "") with
  | some r, _ => ext.canonicalize r
  | none, some v => ext.canonicalize v
  | none, none =>
    match envVar env "HOME" with
    | some h => Except.ok (pathPush h ".deno")
    | none => Except.error "$HOME is not defined"

/-- The log-level serialization as amended: the quiet token for the
highest-severity-only level, the `--log-level` flag followed by the level
name as a separate token for the recognized levels, a fatal
invalid-log-level error for every other level. -/
def specLogTokens : Level → Except String (List String)
  | .error => Except.ok ["--quiet"]
  | .debug => Except.ok ["--log-level", "debug"]
  | .info => Except.ok ["--log-level", "info"]
  | l => Except.error ("invalid log level " ++ levelName l)

/-! ## Helper lemmas -/

theorem string_toList_append (s t : String) :
    (s ++ t).toList = s.toList ++ t.toList := by
  cases s; cases t; rfl

theorem string_mk_toList (s : String) : String.mk s.toList = s := by
  cases s; rfl

theorem string_toList_inj {s t : String} (h : s.toList = t.toList) : s = t := by
  rw [← string_mk_toList s, ← string_mk_toList t, h]

theorem ensure_dir_ok_files {fs fs' : FS} {d : String}
    (h : ensure_dir fs d = .ok fs') : fs'.files = fs.files := by
  unfold ensure_dir at h
  split at h
  · split at h
    · cases h; rfl
    · cases h
  · cases h; rfl

theorem lastSplit_eq_none {c : Char} {l : List Char} (h : c ∉ l) :
    lastSplit c l = none := by
  induction l with
  | nil => rfl
  | cons x xs ih =>
    have hx : x ≠ c := fun hxc => h (hxc ▸ List.mem_cons_self x xs)
    have hxs : c ∉ xs := fun hm => h (List.mem_cons_of_mem x hm)
    simp [lastSplit, ih hxs, hx]

theorem lastSplit_append {c : Char} (d : List Char) {n : List Char}
    (h : c ∉ n) : lastSplit c (d ++ c :: n) = some (d, n) := by
  induction d with
  | nil => simp [lastSplit, lastSplit_eq_none h]
  | cons x xs ih => simp [lastSplit, ih]

theorem stemOfName_no_dot {n : List Char} (h : '.' ∉ n) :
    stemOfName n = n := by
  simp [stemOfName, lastSplit_eq_none h]

theorem fileContent_writeFile (fs : FS) (p c q : String) :
    (fs.writeFile p c).fileContent q =
      if p = q then some c else fs.fileContent q := by
  unfold FS.writeFile FS.fileContent
  by_cases h : p = q
  · simp [List.find?, h]
  · have hb : (p == q) = false := beq_eq_false_iff_ne.mpr h
    simp [List.find?, hb, h]

theorem foldl_writeFile_not_mem (l : List (String × String)) (fs : FS)
    (q : String) (h : ∀ e ∈ l, e.1 ≠ q) :
    (l.foldl (fun acc pc => acc.writeFile pc.1 pc.2) fs).fileContent q =
      fs.fileContent q := by
  induction l generalizing fs with
  | nil => rfl
  | cons e l ih =>
    have he : e.1 ≠ q := h e (List.mem_cons_self e l)
    have hl : ∀ x ∈ l, x.1 ≠ q := fun x hx => h x (List.mem_cons_of_mem e hx)
    simp only [List.foldl_cons, ih _ hl, fileContent_writeFile, if_neg he]

theorem exec_name_chars {nm : String} (h : exec_name_matches nm = true) :
    ∀ c ∈ nm.toList, (c.isAlphanum || c = '_' || c = '-') = true := by
  intro c hc
  unfold exec_name_matches at h
  cases hl : nm.toList with
  | nil => rw [hl] at hc; cases hc
  | cons a rest =>
    rw [hl] at h hc
    simp only [Bool.and_eq_true] at h
    rcases List.mem_cons.mp hc with rfl | hc2
    · simp [Char.isAlphanum, h.1]
    · exact List.all_eq_true.mp h.2 c hc2

theorem exec_name_not_mem {nm : String} (h : exec_name_matches nm = true)
    {c : Char} (hc : (c.isAlphanum || c = '_' || c = '-') = false) :
    c ∉ nm.toList := by
  intro hm
  rw [exec_name_chars h c hm] at hc
  cases hc

theorem exec_name_nonempty {nm : String} (h : exec_name_matches nm = true) :
    nm.toList ≠ [] := by
  intro hl
  unfold exec_name_matches at h
  rw [hl] at h
  cases h

/-! ## Claim theorems -/

/-- C9: the installation root is resolved by the first match of the
explicit root argument (canonicalized), the `DENO_INSTALL_ROOT` override
(canonicalized, set-but-empty treated as unset), and `$HOME/.deno`, with
a home-not-found error when the home variable is missing: the source's
resolution equals the spec's precedence list. -/
theorem claim_C9_root_precedence (ext : Externals)
    (env : List (String × String)) (root : Option String) :
    resolved_root ext env root = specRootPrecedence ext env root := by
  cases root with
  | some r => rfl
  | none =>
    simp only [resolved_root, specRootPrecedence, get_installer_root,
      home_fallback]
    cases h : envVar env "DENO_INSTALL_ROOT" with
    | none => simp [h, Option.filter]
    | some v =>
      by_cases hv : v = ""
      · simp [h, hv, Option.filter]
      · simp [h, hv, Option.filter]

/-- C1: when the computed launcher path already exists and `force` is
false, `install` aborts with the already-exists error and returns the
filesystem unchanged — in particular the existing launcher's content is
byte-identical to what it was before the attempt. -/
theorem claim_C1_already_exists_preserves_fs (ext : Externals)
    (env : List (String × String)) (fs : FS) (flags : Flags)
    (murl : String) (args : List String) (nameOpt : Option String)
    (root : Option String) (rp : String) (u : Url) (nm : String)
    (h1 : resolved_root ext env root = .ok rp)
    (h2 : fs.isDir (pathPush rp "bin") = true)
    (h3 : ext.resolve murl = .ok u)
    (h4 : nameOpt.or (infer_name_from_url u) = some nm)
    (h5 : exec_name_matches nm = true)
    (h6 : fs.pathExists (pathPush (pathPush rp "bin") nm) = true) :
    install ext env fs flags murl args nameOpt root false =
      (.error "Existing installation found. Aborting (Use -f to overwrite).",
        fs) := by
  have h2' : fs.pathExists (pathPush rp "bin") = true := by
    simp [FS.pathExists, h2]
  simp [install, h1, ensure_dir, h2', h2, h3, h4, validate_name, h5, h6]

/-- C1 witness: a concrete already-installed launcher, `force = false`. -/
theorem claim_C1_witness :
    install trivialExternals [] ⟨[("/r/bin/echo", "old")], ["/r/bin"]⟩
        defaultFlags "http://localhost:4545/echo_server.ts" [] (some "echo")
        (some "/r") false =
      (.error "Existing installation found. Aborting (Use -f to overwrite).",
        ⟨[("/r/bin/echo", "old")], ["/r/bin"]⟩) :=
  claim_C1_already_exists_preserves_fs trivialExternals []
    ⟨[("/r/bin/echo", "old")], ["/r/bin"]⟩ defaultFlags
    "http://localhost:4545/echo_server.ts" [] (some "echo") (some "/r") "/r"
    ⟨"http://localhost:4545/echo_server.ts",
      "http://localhost:4545/echo_server.ts"⟩ "echo"
    rfl (by decide) rfl rfl (by decide) (by decide)

/-- C6 counterexample: with an invalid name and a not-yet-existing `bin`
directory, `install` creates the directory **before** name validation
runs, so "no file or directory is created or modified prior to the name
passing validation" is false on the code. -/
theorem claim_C6_counterexample :
    install trivialExternals [] ⟨[], []⟩ defaultFlags "mod.ts" []
        (some "1bad") (some "/r") false =
      (Except.error "Invalid executable name: 1bad", ⟨[], ["/r/bin"]⟩)
    ∧ (FS.mk [] []).dirs ≠ (FS.mk [] ["/r/bin"]).dirs :=
  ⟨by decide, by decide⟩

/-- C6 as amended: no **file** is created or modified before the name
passes validation (the `bin` directory may be created earlier): whenever
`install` runs, either the file set is unchanged, or a name was resolved
and passed validation. -/
theorem claim_C6_amended_no_file_write_before_validation (ext : Externals)
    (env : List (String × String)) (fs : FS) (flags : Flags) (murl : String)
    (args : List String) (nameOpt : Option String) (root : Option String)
    (force : Bool) :
    (install ext env fs flags murl args nameOpt root force).2.files = fs.files
    ∨ ∃ rp u nm, resolved_root ext env root = .ok rp
        ∧ ext.resolve murl = .ok u
        ∧ nameOpt.or (infer_name_from_url u) = some nm
        ∧ exec_name_matches nm = true := by
  cases hr : resolved_root ext env root with
  | error e => left; simp [install, hr]
  | ok rp =>
    cases he : ensure_dir fs (pathPush rp "bin") with
    | error e => left; simp [install, hr, he]
    | ok fs1 =>
      have hf : fs1.files = fs.files := ensure_dir_ok_files he
      cases hres : ext.resolve murl with
      | error e => left; simp [install, hr, he, hres, hf]
      | ok u =>
        cases hn : nameOpt.or (infer_name_from_url u) with
        | none => left; simp [install, hr, he, hres, hn, hf]
        | some nm =>
          cases hv : exec_name_matches nm with
          | false =>
            left; simp [install, hr, he, hres, hn, validate_name, hv, hf]
          | true => right; exact ⟨rp, u, nm, rfl, rfl, hn, hv⟩

/-- C5 counterexample: an explicitly supplied name containing `@` is not
truncated at the `@`; `install` rejects it whole with the invalid-name
error (no launcher named by the prefix is produced). -/
theorem claim_C5_counterexample :
    install trivialExternals [] ⟨[], ["/r/bin"]⟩ defaultFlags "mod.ts" []
        (some "ab@1") (some "/r") false =
      (Except.error "Invalid executable name: ab@1", ⟨[], ["/r/bin"]⟩) := by
  decide

/-- C5 as amended: a name inferred from the URL never contains `@` (it is
truncated at the first `@`), while an explicitly supplied name containing
`@` fails validation: `install` returns an error and writes no file. -/
theorem claim_C5_amended_at_sign :
    (∀ (u : Url) (s : String), infer_name_from_url u = some s →
      '@' ∉ s.toList)
    ∧ (∀ (ext : Externals) (env : List (String × String)) (fs : FS)
        (flags : Flags) (murl : String) (args : List String)
        (root : Option String) (force : Bool) (nm : String),
        '@' ∈ nm.toList →
        (install ext env fs flags murl args (some nm) root force).1.isOk
            = false
        ∧ (install ext env fs flags murl args (some nm) root force).2.files
            = fs.files) := by
  constructor
  · intro u s h hmem
    unfold infer_name_from_url at h
    cases hstem : fileStemOfPath u.path with
    | none => rw [hstem] at h; cases h
    | some st =>
      rw [hstem] at h
      simp only [Option.some.injEq] at h
      rw [← h] at hmem
      have hp := List.mem_takeWhile_imp hmem
      simp at hp
  · intro ext env fs flags murl args root force nm hmem
    have hv : exec_name_matches nm = false := by
      cases hvv : exec_name_matches nm
      · rfl
      · exact absurd hmem (exec_name_not_mem hvv (by decide))
    cases hr : resolved_root ext env root with
    | error e => constructor <;> simp [install, hr, Except.isOk, Except.toBool]
    | ok rp =>
      cases he : ensure_dir fs (pathPush rp "bin") with
      | error e => constructor <;> simp [install, hr, he, Except.isOk, Except.toBool]
      | ok fs1 =>
        have hf : fs1.files = fs.files := ensure_dir_ok_files he
        cases hres : ext.resolve murl with
        | error e =>
          constructor <;>
            simp [install, hr, he, hres, Except.isOk, Except.toBool, hf]
        | ok u =>
          constructor <;>
            simp [install, hr, he, hres, Option.or, validate_name, hv,
              Except.isOk, Except.toBool, hf]

/-- C5 witness: the amended theorem at a concrete supplied name `a@b`. -/
theorem claim_C5_witness :
    (install trivialExternals [] ⟨[], ["/r/bin"]⟩ defaultFlags "m" []
        (some "a@b") (some "/r") false).1.isOk = false
    ∧ (install trivialExternals [] ⟨[], ["/r/bin"]⟩ defaultFlags "m" []
        (some "a@b") (some "/r") false).2.files = [] :=
  claim_C5_amended_at_sign.2 trivialExternals [] ⟨[], ["/r/bin"]⟩
    defaultFlags "m" [] (some "/r") false "a@b" (by decide)

/-- C4 counterexample: with the debug level set, the serialized vector
carries `--log-level` and `debug` as two separate tokens and contains no
token of the form `--log-level=<name>`. -/
theorem claim_C4_counterexample :
    build_executable_args trivialExternals ⟨[], []⟩
        { defaultFlags with log_level := some Level.debug }
        ⟨"mod.ts", "/mod.ts"⟩ [] "/r/bin/x" =
      Except.ok (["run", "--log-level", "debug", "mod.ts"], [])
    ∧ "--log-level=debug" ∉ ["run", "--log-level", "debug", "mod.ts"]
    ∧ "--log-level" ∈ ["run", "--log-level", "debug", "mod.ts"] :=
  ⟨by decide, by decide, by decide⟩

/-- C4 as amended: the error level serializes to the quiet token; the
recognized lower levels serialize to the `--log-level` flag followed by
the level name as a separate token; every other level makes serialization
fail with the fatal invalid-log-level error (never a silent default). -/
theorem claim_C4_amended_log_level :
    (∀ l : Level, log_level_args (some l) = specLogTokens l)
    ∧ (∀ (ext : Externals) (fs : FS) (flags : Flags) (u : Url)
        (pargs : List String) (fp : String) (l : Level),
        flags.log_level = some l → (l = Level.warn ∨ l = Level.trace) →
        build_executable_args ext fs flags u pargs fp =
          Except.error ("invalid log level " ++ levelName l)) := by
  constructor
  · intro l; cases l <;> rfl
  · intro ext fs flags u pargs fp l h hl
    rcases hl with rfl | rfl <;>
      simp [build_executable_args, h, log_level_args, levelName, Bind.bind,
        Except.bind]

/-- C4 witness: the amended theorem at the warn level. -/
theorem claim_C4_witness :
    build_executable_args trivialExternals ⟨[], []⟩
        { defaultFlags with log_level := some Level.warn }
        ⟨"mod.ts", "/mod.ts"⟩ [] "/p" =
      Except.error ("invalid log level " ++ levelName Level.warn) :=
  claim_C4_amended_log_level.2 trivialExternals ⟨[], []⟩
    { defaultFlags with log_level := some Level.warn } ⟨"mod.ts", "/mod.ts"⟩
    [] "/p" Level.warn rfl (Or.inl rfl)

/-- C2: for read-all + net-all + error level + no-check and the echo
server module, the serialized vector is exactly run, the read-allow
token, the net-allow token, the quiet token, the no-check token, the
module URL, then the passthrough arguments in order — nothing else. -/
theorem claim_C2_token_sequence (ext : Externals) (fs : FS) (fp : String)
    (pargs : List String) (u : Url)
    (h : u.str = "http://localhost:4545/echo_server.ts") :
    build_executable_args ext fs
      { defaultFlags with
        allow_read := some []
        allow_net := some []
        log_level := some Level.error
        no_check := true } u pargs fp =
    Except.ok (["run", "--allow-read", "--allow-net", "--quiet", "--no-check",
      "http://localhost:4545/echo_server.ts"] ++ pargs, []) := by
  simp [build_executable_args, defaultFlags, log_level_args,
    Flags.to_permission_args, permArg, h, Bind.bind, Except.bind, pure,
    Except.pure]

/-- C2 witness: the theorem at the concretely resolved echo-server URL. -/
theorem claim_C2_witness :
    build_executable_args trivialExternals ⟨[], []⟩
      { defaultFlags with
        allow_read := some []
        allow_net := some []
        log_level := some Level.error
        no_check := true }
      ⟨"http://localhost:4545/echo_server.ts", "/echo_server.ts"⟩
      ["--foobar"] "/r/bin/echo_test" =
    Except.ok (["run", "--allow-read", "--allow-net", "--quiet", "--no-check",
      "http://localhost:4545/echo_server.ts"] ++ ["--foobar"], []) :=
  claim_C2_token_sequence trivialExternals ⟨[], []⟩ "/r/bin/echo_test"
    ["--foobar"] ⟨"http://localhost:4545/echo_server.ts", "/echo_server.ts"⟩
    rfl

/-- Helper for C10: a stem beginning with `@` makes inference return the
empty string (truncation at the first `@` erases everything). -/
theorem infer_stem_at_sign {u : Url} {s : String}
    (hs : fileStemOfPath u.path = some s) (hh : s.toList.head? = some '@') :
    infer_name_from_url u = some "" := by
  have hres : ¬ (s = "main" ∨ s = "mod" ∨ s = "index" ∨ s = "cli") := by
    rintro (rfl | rfl | rfl | rfl) <;> exact absurd hh (by decide)
  obtain ⟨t, ht⟩ : ∃ t, s.toList = '@' :: t := by
    cases hc : s.toList with
    | nil => rw [hc] at hh; cases hh
    | cons a t =>
      rw [hc] at hh
      simp only [List.head?_cons, Option.some.injEq] at hh
      exact ⟨t, by rw [hh]⟩
  unfold infer_name_from_url
  rw [hs]
  simp only [if_neg hres, ht]
  rfl

/-- C10: a module URL whose final path segment's stem begins with `@`
infers the empty string (not nothing), so `install` without an explicit
name fails with the invalid-name error rather than the missing-name
error. -/
theorem claim_C10_at_stem_empty_name :
    (∀ (u : Url) (s : String), fileStemOfPath u.path = some s →
      s.toList.head? = some '@' → infer_name_from_url u = some "")
    ∧ (∀ (ext : Externals) (env : List (String × String)) (fs : FS)
        (flags : Flags) (murl : String) (args : List String)
        (root : Option String) (force : Bool) (rp : String) (u : Url)
        (s : String),
        resolved_root ext env root = .ok rp →
        fs.isFile (pathPush rp "bin") = false →
        ext.resolve murl = .ok u →
        fileStemOfPath u.path = some s →
        s.toList.head? = some '@' →
        (install ext env fs flags murl args none root force).1 =
          .error "Invalid executable name: ") := by
  constructor
  · intro u s hs hh
    exact infer_stem_at_sign hs hh
  · intro ext env fs flags murl args root force rp u s h1 h2 h3 hs hh
    have hinfer : infer_name_from_url u = some "" := infer_stem_at_sign hs hh
    have hv : exec_name_matches "" = false := by decide
    cases hd : fs.isDir (pathPush rp "bin") with
    | true =>
      simp [install, h1, ensure_dir, FS.pathExists, h2, hd, h3, Option.or,
        hinfer, validate_name, hv]
    | false =>
      simp [install, h1, ensure_dir, FS.pathExists, h2, hd, h3, Option.or,
        hinfer, validate_name, hv]

/-- C10 witness: the install part at a concrete `@`-leading module. -/
theorem claim_C10_witness :
    (install trivialExternals [] ⟨[], ["/r/bin"]⟩ defaultFlags "/x/@foo.ts"
      [] none (some "/r") false).1 = .error "Invalid executable name: " :=
  claim_C10_at_stem_empty_name.2 trivialExternals [] ⟨[], ["/r/bin"]⟩
    defaultFlags "/x/@foo.ts" [] (some "/r") false "/r"
    ⟨"/x/@foo.ts", "/x/@foo.ts"⟩ "@foo" rfl (by decide) rfl (by decide)
    (by decide)

/-- Helper for C3: under the URL-path well-formedness hypotheses, the
Rust `Path` component normalization leaves exactly the URL's segments. -/
theorem pathComponents_of_rawSegments {p : String} {segs : List String}
    (h1 : rawSegments p = "" :: segs)
    (h2 : ∀ s ∈ segs, s ≠ "" ∧ s ≠ "." ∧ s ≠ "..") :
    pathComponents p = segs := by
  unfold pathComponents
  rw [h1, List.filter_cons]
  have h0 : (!(("" : String) == "") && !(("" : String) == ".")) = false := by
    decide
  rw [h0]
  simp only [Bool.false_eq_true, if_false]
  exact List.filter_eq_self.mpr (fun s hs => by
    obtain ⟨hne, hnd, _⟩ := h2 s hs
    simp [hne, hnd])

/-- C3: for a URL whose path is `/`-rooted with normalized, non-empty
segments (what a parsed URL's path looks like), inference returns the
final segment's stem, replaced by the parent segment when the stem is one
of main/mod/index/cli and a parent segment exists, then truncated at the
first `@`; a URL with no path segment (path `/` or empty) infers
nothing. -/
theorem claim_C3_name_inference :
    (∀ (u : Url) (segs : List String),
      rawSegments u.path = "" :: segs →
      (∀ s ∈ segs, s ≠ "" ∧ s ≠ "." ∧ s ≠ "..") →
      infer_name_from_url u =
        segs.getLast?.map (fun last =>
          let stem := String.mk (stemOfName last.toList)
          let nm :=
            if stem = "main" ∨ stem = "mod" ∨ stem = "index" ∨ stem = "cli"
            then (segs.dropLast.getLast?).getD stem else stem
          String.mk (nm.toList.takeWhile (fun c => c != '@'))))
    ∧ (∀ u : Url, u.path = "/" ∨ u.path = "" →
        infer_name_from_url u = none) := by
  constructor
  · intro u segs h1 h2
    have hcomps : pathComponents u.path = segs :=
      pathComponents_of_rawSegments h1 h2
    cases hlast : segs.getLast? with
    | none =>
      have hstem : fileStemOfPath u.path = none := by
        unfold fileStemOfPath fileNameOfPath
        rw [hcomps, hlast]
        rfl
      unfold infer_name_from_url
      rw [hstem]
      rfl
    | some last =>
      have hmem : last ∈ segs := List.mem_of_mem_getLast? hlast
      have hne : last ≠ ".." := (h2 last hmem).2.2
      have hstem : fileStemOfPath u.path =
          some (String.mk (stemOfName last.toList)) := by
        unfold fileStemOfPath fileNameOfPath
        rw [hcomps, hlast]
        simp [hne]
      unfold infer_name_from_url
      rw [hstem]
      cases hpar : segs.dropLast.getLast? with
      | none =>
        have hparval : parentFileName u.path = none := by
          unfold parentFileName
          rw [hcomps, hpar]
        rw [hparval]
        simp
      | some par =>
        have hparmem : par ∈ segs :=
          List.mem_of_mem_dropLast (List.mem_of_mem_getLast? hpar)
        have hpne : par ≠ ".." := (h2 par hparmem).2.2
        have hparval : parentFileName u.path = some par := by
          unfold parentFileName
          rw [hcomps, hpar]
          simp [hpne]
        rw [hparval]
        simp
  · intro u h
    rcases h with h | h <;>
      (unfold infer_name_from_url; rw [h]; rfl)

/-- C3 witness: a reserved stem (`main.ts`) takes the parent directory's
name. -/
theorem claim_C3_witness :
    infer_name_from_url
      ⟨"https://example.com/abc/main.ts", "/abc/main.ts"⟩ = some "abc" :=
  (claim_C3_name_inference.1
      ⟨"https://example.com/abc/main.ts", "/abc/main.ts"⟩
      ["abc", "main.ts"] (by decide) (by decide)).trans (by decide)

/-- Unfolding equation for `parseShell` on a cons in unquoted mode. -/
theorem parseShell_cons_unq (c : Char) (rest : List Char) :
    parseShell (c :: rest) .unq =
      if c = '\'' then parseShell rest .sq
      else if c = '"' then parseShell rest .dq
      else if c = '\\' then
        match rest with
        | [] => none
        | d :: rest' =>
          if d = '\n' then parseShell rest' .unq
          else (parseShell rest' .unq).map (fun l => d :: l)
      else if isMeta c then none
      else (parseShell rest .unq).map (fun l => c :: l) := by
  rw [parseShell.eq_def]

/-- Unfolding equation for `parseShell` on a cons in single-quote mode. -/
theorem parseShell_cons_sq (c : Char) (rest : List Char) :
    parseShell (c :: rest) .sq =
      if c = '\'' then parseShell rest .unq
      else (parseShell rest .sq).map (fun l => c :: l) := by
  rw [parseShell.eq_def]

/-- A whitelisted character is none of the quoting characters and not a
shell metacharacter. -/
theorem whitelisted_not_special {c : Char} (h : whitelisted c = true) :
    c ≠ '\'' ∧ c ≠ '"' ∧ c ≠ '\\' ∧ isMeta c = false := by
  refine ⟨?_, ?_, ?_, ?_⟩
  · rintro rfl; exact absurd h (by decide)
  · rintro rfl; exact absurd h (by decide)
  · rintro rfl; exact absurd h (by decide)
  · cases hm : isMeta c with
    | false => rfl
    | true =>
      exfalso
      simp only [isMeta, decide_eq_true_eq] at hm
      rcases hm with rfl | rfl | rfl | rfl | rfl | rfl | rfl | rfl | rfl |
        rfl | rfl | rfl | rfl | rfl | rfl | rfl | rfl | rfl | rfl | rfl <;>
        exact absurd h (by decide)

/-- A fully whitelisted word parses as itself. -/
theorem parseShell_whitelisted (l : List Char)
    (h : ∀ c ∈ l, whitelisted c = true) :
    parseShell l .unq = some l := by
  induction l with
  | nil => rfl
  | cons c cs ih =>
    obtain ⟨h1, h2, h3, h4⟩ :=
      whitelisted_not_special (h c (List.mem_cons_self c cs))
    have ih' := ih (fun d hd => h d (List.mem_cons_of_mem c hd))
    simp [parseShell_cons_unq, h1, h2, h3, h4, ih']

/-- The single-quoted body built by `shellEscape` parses back to the
original characters. -/
theorem parseShell_escBody (l : List Char) :
    parseShell ((l.map escChar).flatten ++ ['\'']) .sq = some l := by
  induction l with
  | nil => rfl
  | cons c cs ih =>
    by_cases hc : c = '\'' ∨ c = '!'
    · rcases hc with rfl | rfl <;>
        simp [escChar, parseShell_cons_sq, parseShell_cons_unq, ih]
    · have h1 : ¬ c = '\'' := fun h => hc (Or.inl h)
      have h2 : ¬ c = '!' := fun h => hc (Or.inr h)
      simp [escChar, hc, parseShell_cons_sq, h1, h2, ih]

/-- C7: the POSIX dialect round-trips every token (escaping then POSIX
word parsing is the identity), but the Windows dialect does not: the
token consisting of one double-quote character is emitted as `"""`
(wrapped in quotes with no inner escaping, line 52 of the source), which
does not parse back to the original token under the POSIX rules its sh
companion script is subject to.  The repository's own test notes this:
"TODO: enable on Windows after fixing batch escaping". -/
theorem claim_C7_roundtrip :
    (∀ t : String, parseShellWord (shellEscape t) = some t)
    ∧ windows_quoted_arg "\"" = "\"\"\""
    ∧ parseShellWord (windows_quoted_arg "\"") = none := by
  refine ⟨?_, by decide, by decide⟩
  intro t
  unfold shellEscape parseShellWord
  by_cases hw : t ≠ "" ∧ t.toList.all whitelisted
  · rw [if_pos hw]
    have hall : ∀ c ∈ t.toList, whitelisted c = true :=
      List.all_eq_true.mp hw.2
    rw [parseShell_whitelisted t.toList hall]
    simp [string_mk_toList]
  · rw [if_neg hw]
    have hstep : parseShell (String.mk ('\'' :: (t.toList.map escChar).flatten
        ++ ['\''])).toList .unq =
        parseShell ((t.toList.map escChar).flatten ++ ['\'']) .sq := by
      simp [String.toList, parseShell_cons_unq]
    rw [hstep, parseShell_escBody]
    simp [string_mk_toList]


theorem exists_mid_base (X m : List String) :
    ∃ pre post, X ++ m = pre ++ m ++ post := ⟨X, [], by simp⟩

theorem exists_mid_ext {l m : List String} (x : List String)
    (h : ∃ pre post, l = pre ++ m ++ post) :
    ∃ pre post, l ++ x = pre ++ m ++ post := by
  obtain ⟨p, q, hl⟩ := h
  exact ⟨p, q ++ x, by rw [hl]; simp [List.append_assoc]⟩

theorem append_ne_empty_of_right (a b : String) (hb : b.toList ≠ []) :
    a ++ b ≠ "" := by
  intro h
  have h' := congrArg String.toList h
  rw [string_toList_append] at h'
  have : ("" : String).toList = [] := rfl
  rw [this] at h'
  exact hb (List.append_eq_nil.mp h').2

theorem pathPush_bin_shape (rp : String) :
    pathPush rp "bin" ≠ "" ∧ (pathPush rp "bin").toList.getLast? ≠ some '/' := by
  have hbin : ("bin" : String).toList ≠ [] := by decide
  unfold pathPush
  by_cases h0 : rp = ""
  · simp [h0]
  · by_cases h1 : rp.toList.getLast? = some '/'
    · rw [if_neg h0, if_pos h1]
      refine ⟨append_ne_empty_of_right _ _ hbin, ?_⟩
      rw [string_toList_append, List.getLast?_append_of_ne_nil _ hbin]
      decide
    · rw [if_neg h0, if_neg h1]
      refine ⟨append_ne_empty_of_right _ _ hbin, ?_⟩
      rw [string_toList_append, List.getLast?_append_of_ne_nil _ hbin]
      decide

theorem pathPush_plain (d s : String) (h0 : d ≠ "")
    (h1 : d.toList.getLast? ≠ some '/') :
    pathPush d s = d ++ "/" ++ s := by
  unfold pathPush
  rw [if_neg h0, if_neg h1]

theorem pathPush_pathPush_bin (rp nm : String) :
    pathPush (pathPush rp "bin") nm = pathPush rp "bin" ++ "/" ++ nm :=
  pathPush_plain _ _ (pathPush_bin_shape rp).1 (pathPush_bin_shape rp).2

theorem setExtension_append (d nm e : String) (hne : nm.toList ≠ [])
    (hslash : '/' ∉ nm.toList) (hdot : '.' ∉ nm.toList) :
    setExtension (d ++ "/" ++ nm) e =
      String.mk ((d ++ "/" ++ nm).toList ++ '.' :: e.toList) := by
  have htl : (d ++ "/" ++ nm).toList = d.toList ++ '/' :: nm.toList := by
    rw [string_toList_append, string_toList_append]
    have : ("/" : String).toList = ['/'] := rfl
    rw [this, List.append_assoc]
    rfl
  unfold setExtension
  rw [htl, lastSplit_append d.toList hslash]
  simp only [hne, if_neg]
  rw [stemOfName_no_dot hdot]
  simp [List.append_assoc]

theorem ne_of_append_dot (p e : String) :
    p ≠ String.mk (p.toList ++ '.' :: e.toList) := by
  intro h
  have h' := congrArg (fun s => s.toList.length) h
  simp [String.toList] at h'

theorem append_dot_inj (p e1 e2 : String)
    (h : String.mk (p.toList ++ '.' :: e1.toList) =
      String.mk (p.toList ++ '.' :: e2.toList)) : e1 = e2 := by
  have h' := congrArg String.toList h
  simp only [String.toList] at h'
  have := List.append_cancel_left h'
  apply string_toList_inj
  simpa using this

/-- Dissection of `build_executable_args` when a config path is set and
readable: the ok-result carries the `--config` token pair and stages the
copy first among the extra files (any further staged file is the lock
copy). -/
theorem build_config_structure (ext : Externals) (fs : FS) (flags : Flags)
    (u : Url) (args : List String) (fp : String) (cp content : String)
    (v : List String) (fl : List (String × String))
    (h7 : flags.config_path = some cp)
    (h8 : fs.fileContent cp = some content)
    (hb : build_executable_args ext fs flags u args fp = .ok (v, fl)) :
    (∃ pre post,
      v = pre ++ ["--config", setExtension fp "tsconfig.json"] ++ post)
    ∧ ∃ fl2, fl = (setExtension fp "tsconfig.json", content) :: fl2
        ∧ ∀ e ∈ fl2, e.1 = setExtension fp "lock.json" := by
  unfold build_executable_args at hb
  cases hl : log_level_args flags.log_level with
  | error e =>
    simp [hl, Bind.bind, Except.bind] at hb
  | ok lvl =>
    cases him : flags.import_map_path with
    | none =>
      cases hlk : flags.lock with
      | none =>
        simp only [hl, him, hlk, h7, h8, Bind.bind, Except.bind, pure,
          Except.pure, Except.ok.injEq, Prod.mk.injEq] at hb
        obtain ⟨hv, hfl⟩ := hb
        constructor
        · rw [← hv]
          exact exists_mid_ext _ (exists_mid_ext _ (exists_mid_ext _
            (exists_mid_base _ _)))
        · exact ⟨[], by simp [← hfl], by simp⟩
      | some lp =>
        cases hlkc : fs.fileContent lp with
        | none =>
          simp [hl, him, hlk, hlkc, h7, h8, Bind.bind, Except.bind, pure,
            Except.pure] at hb
        | some lc =>
          simp only [hl, him, hlk, hlkc, h7, h8, Bind.bind, Except.bind, pure,
            Except.pure, Except.ok.injEq, Prod.mk.injEq] at hb
          obtain ⟨hv, hfl⟩ := hb
          constructor
          · rw [← hv]
            exact exists_mid_ext _ (exists_mid_ext _ (exists_mid_ext _
              (exists_mid_base _ _)))
          · exact ⟨[(setExtension fp "lock.json", lc)], by simp [← hfl],
              by simp⟩
    | some imp =>
      cases hres2 : ext.resolve imp with
      | error e =>
        simp [hl, him, hres2, Bind.bind, Except.bind, pure, Except.pure] at hb
      | ok u2 =>
        cases hlk : flags.lock with
        | none =>
          simp only [hl, him, hres2, hlk, h7, h8, Bind.bind, Except.bind,
            pure, Except.pure, Except.ok.injEq, Prod.mk.injEq] at hb
          obtain ⟨hv, hfl⟩ := hb
          constructor
          · rw [← hv]
            exact exists_mid_ext _ (exists_mid_ext _ (exists_mid_ext _
              (exists_mid_base _ _)))
          · exact ⟨[], by simp [← hfl], by simp⟩
        | some lp =>
          cases hlkc : fs.fileContent lp with
          | none =>
            simp [hl, him, hres2, hlk, hlkc, h7, h8, Bind.bind, Except.bind,
              pure, Except.pure] at hb
          | some lc =>
            simp only [hl, him, hres2, hlk, hlkc, h7, h8, Bind.bind,
              Except.bind, pure, Except.pure, Except.ok.injEq,
              Prod.mk.injEq] at hb
            obtain ⟨hv, hfl⟩ := hb
            constructor
            · rw [← hv]
              exact exists_mid_ext _ (exists_mid_ext _ (exists_mid_ext _
                (exists_mid_base _ _)))
            · exact ⟨[(setExtension fp "lock.json", lc)], by simp [← hfl],
                by simp⟩

/-- C8: with a readable type-config file, after a successful install the
serialized vector carries the `--config` flag whose value is
`<bin>/<name>.tsconfig.json` (the launcher path with its extension
replaced by the tsconfig.json suffix, under the bin directory), and the
file written at that path holds exactly the original config file's
content. -/
theorem claim_C8_config_staging (ext : Externals)
    (env : List (String × String)) (fs : FS) (flags : Flags) (murl : String)
    (args : List String) (nameOpt : Option String) (root : Option String)
    (force : Bool) (rp : String) (u : Url) (nm cp content : String)
    (h1 : resolved_root ext env root = .ok rp)
    (h2 : fs.isDir (pathPush rp "bin") = true)
    (h3 : ext.resolve murl = .ok u)
    (h4 : nameOpt.or (infer_name_from_url u) = some nm)
    (h5 : exec_name_matches nm = true)
    (h7 : flags.config_path = some cp)
    (h8 : fs.fileContent cp = some content)
    (hok : (install ext env fs flags murl args nameOpt root force).1 =
      .ok ()) :
    (∃ v fl pre post,
      build_executable_args ext fs flags u args
          (pathPush (pathPush rp "bin") nm) = .ok (v, fl)
      ∧ v = pre ++ ["--config",
          pathPush rp "bin" ++ "/" ++ nm ++ ".tsconfig.json"] ++ post)
    ∧ (install ext env fs flags murl args nameOpt root force).2.fileContent
        (pathPush rp "bin" ++ "/" ++ nm ++ ".tsconfig.json") =
        some content := by
  have hfp : pathPush (pathPush rp "bin") nm = pathPush rp "bin" ++ "/" ++ nm :=
    pathPush_pathPush_bin rp nm
  have hslash : '/' ∉ nm.toList := exec_name_not_mem h5 (by decide)
  have hdot : '.' ∉ nm.toList := exec_name_not_mem h5 (by decide)
  have hne : nm.toList ≠ [] := exec_name_nonempty h5
  have hset : setExtension (pathPush rp "bin" ++ "/" ++ nm) "tsconfig.json" =
      String.mk ((pathPush rp "bin" ++ "/" ++ nm).toList ++
        '.' :: ("tsconfig.json" : String).toList) :=
    setExtension_append _ _ _ hne hslash hdot
  have hsetl : setExtension (pathPush rp "bin" ++ "/" ++ nm) "lock.json" =
      String.mk ((pathPush rp "bin" ++ "/" ++ nm).toList ++
        '.' :: ("lock.json" : String).toList) :=
    setExtension_append _ _ _ hne hslash hdot
  have hcfgeq : setExtension (pathPush (pathPush rp "bin") nm)
      "tsconfig.json" = pathPush rp "bin" ++ "/" ++ nm ++ ".tsconfig.json" := by
    rw [hfp, hset]
    apply string_toList_inj
    rw [string_toList_append]
    rfl
  have hlockne : setExtension (pathPush (pathPush rp "bin") nm) "lock.json" ≠
      setExtension (pathPush (pathPush rp "bin") nm) "tsconfig.json" := by
    rw [hfp, hset, hsetl]
    intro h
    have := append_dot_inj _ _ _ h
    exact absurd (congrArg String.toList this) (by decide)
  have hpx : fs.pathExists (pathPush rp "bin") = true := by
    simp [FS.pathExists, h2]
  cases hconf : (fs.pathExists (pathPush (pathPush rp "bin") nm) && !force) with
  | true =>
    exfalso
    simp [install, h1, ensure_dir, hpx, h2, h3, h4, validate_name, h5,
      hconf] at hok
  | false =>
    cases hb : build_executable_args ext fs flags u args
        (pathPush (pathPush rp "bin") nm) with
    | error e =>
      exfalso
      simp [install, h1, ensure_dir, hpx, h2, h3, h4, validate_name, h5,
        hconf, hb] at hok
    | ok vfl =>
      obtain ⟨v, fl⟩ := vfl
      obtain ⟨hmid, fl2, hfl, hfl2⟩ :=
        build_config_structure ext fs flags u args _ cp content v fl h7 h8 hb
      have hinst : install ext env fs flags murl args nameOpt root force =
          (.ok (), fl.foldl (fun acc pc => acc.writeFile pc.1 pc.2)
            (generate_executable_file fs (pathPush (pathPush rp "bin") nm)
              v)) := by
        simp [install, h1, ensure_dir, hpx, h2, h3, h4, validate_name, h5,
          hconf, hb]
      constructor
      · obtain ⟨pre, post, hpre⟩ := hmid
        exact ⟨v, fl, pre, post, rfl, by rw [hpre, hcfgeq]⟩
      · rw [hinst, ← hcfgeq, hfl]
        rw [List.foldl_cons]
        rw [foldl_writeFile_not_mem fl2 _ _ (fun e he => by
          rw [hfl2 e he]
          exact hlockne)]
        rw [fileContent_writeFile]
        simp

/-- C8 witness: a concrete install with a config file `/cfg` holding
`abc`. -/
theorem claim_C8_witness :
    (∃ v fl pre post,
      build_executable_args trivialExternals ⟨[("/cfg", "abc")], ["/r/bin"]⟩
          { defaultFlags with config_path := some "/cfg" }
          ⟨"http://x/cat.ts", "http://x/cat.ts"⟩ []
          (pathPush (pathPush "/r" "bin") "echo_test") = .ok (v, fl)
      ∧ v = pre ++ ["--config",
          pathPush "/r" "bin" ++ "/" ++ "echo_test" ++ ".tsconfig.json"] ++
          post)
    ∧ (install trivialExternals [] ⟨[("/cfg", "abc")], ["/r/bin"]⟩
        { defaultFlags with config_path := some "/cfg" } "http://x/cat.ts" []
        (some "echo_test") (some "/r") true).2.fileContent
        (pathPush "/r" "bin" ++ "/" ++ "echo_test" ++ ".tsconfig.json") =
        some "abc" :=
  claim_C8_config_staging trivialExternals [] ⟨[("/cfg", "abc")], ["/r/bin"]⟩
    { defaultFlags with config_path := some "/cfg" } "http://x/cat.ts" []
    (some "echo_test") (some "/r") true "/r"
    ⟨"http://x/cat.ts", "http://x/cat.ts"⟩ "echo_test" "/cfg" "abc"
    rfl (by decide) rfl rfl (by decide) rfl rfl (by decide)
